/-
Verification of the tender-management core (src/app_patch_backbutton.py)
against its natural-language specification.

The Python module is shallowly embedded:

* Raw persisted JSON values are modelled by `JVal` (Python dicts become
  ordered association lists, which is how Python preserves key order).
  The storage location is modelled by `Storage`: the file may be absent,
  present but not parseable as JSON, or present with a parsed value.
  `save_data` writes `json.dump(data)`; since `json.load` of that text
  yields back the same value for JSON-representable data, the stored
  content is modelled directly as the parsed value.
* The typed record level (`Opp`, `Document`) models the opportunity
  dicts the page handlers operate on.  Only the fields that the verified
  operations read or write are named; every remaining key/value pair of
  the record dict is carried opaquely in `rest`, so updates that do not
  touch it provably preserve it.
* Streamlit session state relevant to navigation is `Session`; the URL
  query parameters are `QueryParams`.  Each Streamlit rerun is one
  evaluation pass; reruns are modelled by function composition.
* Python `int(...)` string parsing (ASCII digits, optional sign,
  underscore separators between digits, surrounding whitespace) is
  modelled by `pyIntParse`; `str.strip`/`str.lower` are modelled by
  `String.trim`/`String.toLower` (the stage names and ids involved are
  ASCII).
-/
import Mathlib

namespace Tender

/-- A parsed JSON value (Python `json.load` result).  Objects are
ordered association lists, mirroring Python dict insertion order; the
sources only ever build dicts with distinct keys. -/
inductive JVal where
  | null : JVal
  | bool (b : Bool) : JVal
  | num (n : Int) : JVal
  | str (s : String) : JVal
  | arr (xs : List JVal) : JVal
  | obj (kvs : List (String × JVal)) : JVal

/-- First-match association lookup: Python `d[k]` / `k in d` on a dict
(keys are unique in dicts produced by `json.load`). -/
def lookupKV (kvs : List (String × JVal)) (k : String) : Option JVal :=
  match kvs with
  | [] => none
  | (k', v) :: rest => if k' = k then some v else lookupKV rest k

/-- Python `'opportunities' in data` for a dict. -/
def hasKey (kvs : List (String × JVal)) (k : String) : Bool :=
  kvs.any (fun kv => kv.1 == k)

/-- The empty document `{"opportunities": []}`. -/
def emptyDoc : JVal := .obj [("opportunities", .arr [])]

/-- The persisted storage location: the file can be absent
(`os.path.exists` false), present but failing `json.load` (corrupt or
empty), or present with JSON content that parses to a value. -/
inductive Storage where
  | absent : Storage
  | unreadable : Storage
  | content (v : JVal) : Storage

/-- `load_data()`: returns the empty document when the file is absent,
when `json.load` raises, or when the parsed value is not a dict
containing the key `"opportunities"`; otherwise returns the parsed
value unchanged. -/
def load_data : Storage → JVal
  | .absent => emptyDoc
  | .unreadable => emptyDoc
  | .content v =>
    match v with
    | .obj kvs => if hasKey kvs "opportunities" then .obj kvs else emptyDoc
    | _ => emptyDoc

/-- `save_data(data)`: overwrites the file with `json.dump(data)`.  The
file then holds JSON text that parses back to `data`. -/
def save_data (data : JVal) : Storage := .content data

/-- The `opportunities` key of a value is present and holds a list. -/
def opportunitiesIsList (v : JVal) : Prop :=
  ∃ kvs xs, v = .obj kvs ∧ lookupKV kvs "opportunities" = some (.arr xs)

instance (v : JVal) : Decidable (opportunitiesIsList v) := by
  unfold opportunitiesIsList
  match v with
  | .null | .bool _ | .num _ | .str _ | .arr _ =>
    exact .isFalse (by rintro ⟨kvs, xs, h, -⟩; cases h)
  | .obj kvs =>
    match hl : lookupKV kvs "opportunities" with
    | some (.arr xs) => exact .isTrue ⟨kvs, xs, rfl, hl⟩
    | some .null | some (.bool _) | some (.num _) | some (.str _)
    | some (.obj _) | none =>
      exact .isFalse (by rintro ⟨kvs', xs, h, hl'⟩; cases h; rw [hl] at hl'; cases hl')

/-! ## Typed record level

The page handlers work on the opportunity dicts inside
`st.session_state.data['opportunities']`.  `Opp` names the fields those
handlers read or write (`id`, `stage`, `last_modified_by`); all other
key/value pairs of the record dict are carried opaquely in `rest`. -/

/-- An opportunity record. -/
structure Opp where
  id : String
  stage : String
  last_modified_by : String
  rest : List (String × JVal)

/-- The in-memory document `{"opportunities": [...]}` at the typed level. -/
structure Document where
  opportunities : List Opp

/-- `get_by_id(data, opp_id)`: linear scan, first record whose `id`
equals `opp_id`, `None` when there is no match. -/
def get_by_id (data : Document) (opp_id : String) : Option Opp :=
  data.opportunities.find? (fun o => o.id == opp_id)

/-! ## Python string primitives

`str.strip` / `str.lower` / `str.split` / `int(str)` are modelled on
character lists (Lean's own `String.trim`, `String.toLower` and
`String.splitOn` are not used so that every definition evaluates by
kernel reduction).  The model covers ASCII data, which is all the
sources ever feed these primitives. -/

/-- ASCII whitespace as stripped by `str.strip()` and `int(...)`. -/
def isPySpace (c : Char) : Bool :=
  c == ' ' || c == '\t' || c == '\n' || c == '\r' || c == '\x0b' || c == '\x0c'

/-- `str.strip()`: drop whitespace from both ends. -/
def pyStrip (cs : List Char) : List Char :=
  ((cs.dropWhile isPySpace).reverse.dropWhile isPySpace).reverse

/-- ASCII lower-casing of one character, as `str.lower()` does on
ASCII input. -/
def lowerChar (c : Char) : Char :=
  if 65 ≤ c.toNat && c.toNat ≤ 90 then Char.ofNat (c.toNat + 32) else c

/-- `str.lower()`. -/
def pyLower (cs : List Char) : List Char :=
  cs.map lowerChar

/-- Accumulator pass of `splitOnChar`. -/
def splitOnCharAux (sep : Char) : List Char → List Char → List (List Char)
  | [], acc => [acc.reverse]
  | c :: rest, acc =>
    if c == sep then acc.reverse :: splitOnCharAux sep rest []
    else splitOnCharAux sep rest (c :: acc)

/-- `str.split(sep)` for a one-character separator: the (always
nonempty) list of segments between occurrences of `sep`;
`''.split('-') == ['']`. -/
def splitOnChar (sep : Char) (cs : List Char) : List (List Char) :=
  splitOnCharAux sep cs []

/-- No `'_'` is immediately followed by another `'_'`. -/
def noDoubleUnd : List Char → Bool
  | [] => true
  | [_] => true
  | a :: b :: rest => !(a == '_' && b == '_') && noDoubleUnd (b :: rest)

/-- Decimal value of a list of ASCII digits. -/
def digitsToNat (cs : List Char) : Nat :=
  cs.foldl (fun a c => 10 * a + (c.toNat - 48)) 0

/-- Python unsigned decimal literal body: nonempty, digits with single
underscores allowed only between digits. -/
def pyDigits : List Char → Option Nat
  | [] => none
  | c :: rest =>
    if ((c :: rest).all fun x => x.isDigit || x == '_') && c.isDigit
        && ((c :: rest).getLastD 'x').isDigit && noDoubleUnd (c :: rest) then
      some (digitsToNat ((c :: rest).filter (fun x => x != '_')))
    else
      none

/-- Python `int(s)` on a string: strip surrounding whitespace, optional
single sign, then a decimal literal body; `none` models `ValueError`. -/
def pyIntParse (s : List Char) : Option Int :=
  match pyStrip s with
  | '+' :: rest => (pyDigits rest).map Int.ofNat
  | '-' :: rest => (pyDigits rest).map fun n => -(n : Int)
  | cs => (pyDigits cs).map Int.ofNat

/-- Left-pad with `'0'` to width `w`. -/
def zpad (s : String) (w : Nat) : String :=
  String.mk (List.replicate (w - s.length) '0') ++ s

/-- Python `f"{n:04d}"`: minimum width 4, zero padded, sign counted in
the width. -/
def fmt04d (n : Int) : String :=
  if n < 0 then "-" ++ zpad (toString n.natAbs) 3 else zpad (toString n.natAbs) 4

/-- `int(str(o.get('id','')).split('-')[-1])` for one record id:
the text after the last `'-'`, parsed as a Python int. -/
def trailingSuffixNum (id : String) : Option Int :=
  pyIntParse ((splitOnChar '-' id.data).getLastD [])

/-- `next_id(data)`: collect the parseable trailing suffixes (the
`try/except` loop skips records whose suffix fails `int(...)`), take
`max + 1` (`1` when none parsed), format as `OPP-%04d`. -/
def next_id (data : Document) : String :=
  let ids : List Int := data.opportunities.foldl
    (fun acc o =>
      match trailingSuffixNum o.id with
      | some n => acc ++ [n]
      | none => acc) []
  let nxt : Int :=
    match ids with
    | [] => 1
    | n :: rest => rest.foldl max n + 1
  "OPP-" ++ fmt04d nxt

/-! ## Filter engine -/

/-- `filter_opportunities_by_stage(data, stage)`.  The handler is called
with a string (`stage or ''` maps a falsy argument to `''`, which for a
string argument is the identity): trim the argument; `'all'` (any case)
or empty means no filter; otherwise keep the records whose trimmed,
lower-cased `stage` field equals the lower-cased argument. -/
def filter_opportunities_by_stage (data : Document) (stage : String) : List Opp :=
  let stage := pyStrip stage.data
  if pyLower stage == ['a', 'l', 'l'] || stage == [] then data.opportunities
  else data.opportunities.filter
    (fun o => pyLower (pyStrip o.stage.data) == pyLower stage)

/-! ## Submit Tender handler -/

/-- The two field updates of the submit handler:
`opp['stage'] = 'Submitted'; opp['last_modified_by'] = 'Tender Desk'`. -/
def submit_tender_record (o : Opp) : Opp :=
  { o with stage := "Submitted", last_modified_by := "Tender Desk" }

/-- In-place mutation of the dict returned by `get_by_id`: the first
record whose id matches is replaced by `f` of it; the rest of the list
is untouched. -/
def updateFirst (l : List Opp) (opp_id : String) (f : Opp → Opp) : List Opp :=
  match l with
  | [] => []
  | o :: rest => if o.id == opp_id then f o :: rest else o :: updateFirst rest opp_id f

/-- Result of the submit handler: the session document after the
in-place mutation, and the document written by
`save_data(st.session_state.data)` (the whole, already-mutated
document). -/
structure SubmitResult where
  doc : Document
  persisted : Document

/-- The Submit Tender button handler, for the record currently pointed
at by `current_id`: mutate that record's `stage` and
`last_modified_by`, then persist the whole document. -/
def submitTenderHandler (data : Document) (opp_id : String) : SubmitResult :=
  let d : Document := ⟨updateFirst data.opportunities opp_id submit_tender_record⟩
  ⟨d, d⟩

/-! ## Selection model (Opportunities page)

`st.session_state._selected_map` is a Python dict from record id to a
checked flag; it is modelled as an insertion-ordered association list.
The reconciliation below mirrors lines 190-247 of the source.  The
query-parameter synchronisation done in the same branches is a
side-channel the claims do not mention and is not part of `ReconOut`. -/

/-- The selection map: record id to checked flag, insertion ordered. -/
abbrev SelMap := List (String × Bool)

/-- Python `m.get(k, d)` on the selection map: first match or default. -/
def selGetD (m : SelMap) (k : String) (d : Bool) : Bool :=
  match m with
  | [] => d
  | (k', v) :: rest => if k' == k then v else selGetD rest k d

/-- Python `k in m` on the selection map. -/
def selHasKey (m : SelMap) (k : String) : Bool :=
  m.any (fun kv => kv.1 == k)

/-- Python dict assignment `m[k] = v`: update in place when the key is
present, append otherwise. -/
def selInsert (m : SelMap) (k : String) (v : Bool) : SelMap :=
  if selHasKey m k then m.map (fun kv => if kv.1 == k then (k, v) else kv)
  else m ++ [(k, v)]

/-- Python dict comprehension `{rid: f(rid) for rid in ids}`. -/
def dictComp (ids : List String) (f : String → Bool) : SelMap :=
  ids.foldl (fun acc rid => selInsert acc rid (f rid)) []

/-- Lines 193-201: build `_selected_map` for the current table.  On
first use it is `{rid: (rid == current_id) for rid in ids}`; afterwards
keys not in the visible ids are popped and every visible id is
`setdefault`-ed to `(rid == current_id)`.  `current_id` is
`st.session_state.get('current_id', '')`. -/
def pruneInit (m : Option SelMap) (ids : List String) (current_id : String) : SelMap :=
  match m with
  | none => dictComp ids (fun rid => rid == current_id)
  | some m =>
    let pruned := m.filter (fun kv => ids.contains kv.1)
    ids.foldl
      (fun acc rid =>
        if selHasKey acc rid then acc else acc ++ [(rid, rid == current_id)])
      pruned

/-- Line 220: `changed_to_true`, the visible ids whose submitted flag
is checked but whose previous flag was not, in visible-id order. -/
def changedToTrue (ids : List String) (prev : SelMap) (edited : String → Bool) :
    List String :=
  ids.filter (fun rid => edited rid && !(selGetD prev rid false))

/-- Outcome of the reconciliation: the locally computed `selected_id`,
the rebuilt `_selected_map`, the (possibly unchanged) session
`current_id`, and whether `safe_rerun` was called. -/
structure ReconOut where
  selected_id : Option String
  selected_map : SelMap
  current_id : Option String
  rerun : Bool

/-- Lines 219-247: reconcile the submitted checkbox states against the
previous map.  A nonempty newly-checked set means its last element (in
visible-id order) wins and a rerun is forced; otherwise zero checked
clears the map (leaving the session `current_id` alone), exactly one
checked selects it, and several checked select the last one with a
forced rerun. -/
def reconcile (ids : List String) (prev : SelMap) (edited : String → Bool)
    (current_id : Option String) : ReconOut :=
  let changed := changedToTrue ids prev edited
  match changed with
  | _ :: _ =>
    let rid := changed.getLastD ""
    ⟨some rid, dictComp ids (fun r => r == rid), some rid, true⟩
  | [] =>
    let selected_ids := ids.filter edited
    match selected_ids with
    | [] => ⟨none, dictComp ids (fun _ => false), current_id, false⟩
    | [rid] => ⟨some rid, dictComp ids (fun r => r == rid), some rid, false⟩
    | _ :: _ :: _ =>
      let rid := selected_ids.getLastD ""
      ⟨some rid, dictComp ids (fun r => r == rid), some rid, true⟩

/-! ## Navigation state machine -/

/-- The URL query parameters `page` and `id`. -/
structure QueryParams where
  page : Option String
  id : Option String

/-- The navigation-relevant Streamlit session state. -/
structure Session where
  data : Document
  current_id : Option String
  nav : String
  nav_history : List String
  nav_target : Option String
  qp_consumed : Bool

/-- The four page names of the sidebar radio. -/
def valid_pages : List String :=
  ["Opportunities", "New Opportunity", "Opportunity Detail", "Submit Tender"]

/-- Lines 131-135: if a navigation intent was set by the previous run,
pop it, make it the current page, and re-allow query-parameter
hydration. -/
def consumeIntent (s : Session) : Session :=
  match s.nav_target with
  | some target => { s with nav := target, nav_target := none, qp_consumed := false }
  | none => s

/-- Lines 137-149: one-shot deep-link hydration.  When `_qp_consumed`
is still false: a truthy `id` parameter naming an existing record sets
`current_id`; a `page` parameter among the valid pages sets the current
page; then the flag is set.  Otherwise nothing happens. -/
def hydrate (s : Session) (qp : QueryParams) : Session :=
  if s.qp_consumed then s
  else
    let s1 :=
      match qp.id with
      | some i =>
        if i != "" && s.data.opportunities.any (fun o => o.id == i) then
          { s with current_id := some i }
        else s
      | none => s
    let s2 :=
      match qp.page with
      | some p => if valid_pages.contains p then { s1 with nav := p } else s1
      | none => s1
    { s2 with qp_consumed := true }

/-- The head of every evaluation pass: consume a pending intent, then
hydrate from the query parameters. -/
def intentAndHydrate (s : Session) (qp : QueryParams) : Session :=
  hydrate (consumeIntent s) qp

/-- Line 100: the Back control is disabled when the history is empty or
a singleton. -/
def back_disabled (s : Session) : Bool :=
  s.nav_history.isEmpty || s.nav_history.length ≤ 1

/-- Lines 102-110, the `on_click` handler of the Back control: when the
history has more than one entry, pop the current page, set the new top
as the pending navigation intent, and write it (with the current record
id) into the query parameters; otherwise do nothing. -/
def go_back (s : Session) (qp : QueryParams) : Session × QueryParams :=
  if 1 < s.nav_history.length then
    let hist := s.nav_history.dropLast
    let target := hist.getLastD ""
    ({ s with nav_history := hist, nav_target := some target },
     { page := some target, id := s.current_id })
  else (s, qp)

/-! ## Specification-side definitions

These few definitions follow the spec's words rather than the source;
each claim theorem relates a source-translated definition to them. -/

/-- The trailing numeric suffixes that parse, in document order
(spec: "scans the existing record ids, extracts the trailing numeric
suffix of each id, skipping without failure any id whose suffix does
not parse as an integer"). -/
def parsedSuffixes (data : Document) : List Int :=
  data.opportunities.filterMap (fun o => trailingSuffixNum o.id)

/-- Spec: "max + 1 (or 1 if no id parsed)". -/
def specNextNum (data : Document) : Int :=
  match parsedSuffixes data with
  | [] => 1
  | n :: rest => rest.foldl max n + 1

/-- Spec: a record matches "after trimming whitespace on both sides and
case-insensitive comparison" of its stage field with the argument. -/
def specStageMatch (o : Opp) (stage : String) : Bool :=
  pyLower (pyStrip o.stage.data) == pyLower (pyStrip stage.data)

/-- Spec: the argument "trims to the empty string or to `all` in any
letter case". -/
def specNoFilter (stage : String) : Bool :=
  pyStrip stage.data == [] || pyLower (pyStrip stage.data) == ['a', 'l', 'l']

/-! ## Association-map lemmas -/

@[simp] theorem selHasKey_nil (k : String) : selHasKey [] k = false := rfl

@[simp] theorem selHasKey_cons (kv : String × Bool) (rest : SelMap) (k : String) :
    selHasKey (kv :: rest) k = (kv.1 == k || selHasKey rest k) := rfl

@[simp] theorem selGetD_nil (k : String) (d : Bool) : selGetD [] k d = d := rfl

@[simp] theorem selGetD_cons (k' : String) (v : Bool) (rest : SelMap) (k : String)
    (d : Bool) :
    selGetD ((k', v) :: rest) k d = if k' == k then v else selGetD rest k d := rfl

theorem selHasKey_append (m m2 : SelMap) (k : String) :
    selHasKey (m ++ m2) k = (selHasKey m k || selHasKey m2 k) := by
  induction m with
  | nil => simp
  | cons kv rest ih => simp [ih, Bool.or_assoc]

theorem selGetD_append_of_hasKey (m m2 : SelMap) (k : String) (d : Bool)
    (h : selHasKey m k = true) : selGetD (m ++ m2) k d = selGetD m k d := by
  induction m with
  | nil => simp at h
  | cons kv rest ih =>
    obtain ⟨k0, v0⟩ := kv
    by_cases hk : (k0 == k) = true
    · simp [hk]
    · simp [hk] at h ⊢
      exact ih h

theorem selGetD_append_of_not_hasKey (m m2 : SelMap) (k : String) (d : Bool)
    (h : selHasKey m k = false) : selGetD (m ++ m2) k d = selGetD m2 k d := by
  induction m with
  | nil => simp
  | cons kv rest ih =>
    obtain ⟨k0, v0⟩ := kv
    simp at h
    simp [h.1, ih h.2]

theorem selGetD_of_not_hasKey (m : SelMap) (k : String) (d : Bool)
    (h : selHasKey m k = false) : selGetD m k d = d := by
  induction m with
  | nil => rfl
  | cons kv rest ih =>
    obtain ⟨k0, v0⟩ := kv
    simp at h
    simp [h.1, ih h.2]

theorem selHasKey_map_keyFixed (m : SelMap) (f : String × Bool → String × Bool)
    (hf : ∀ kv, (f kv).1 = kv.1) (k : String) :
    selHasKey (m.map f) k = selHasKey m k := by
  induction m with
  | nil => rfl
  | cons kv rest ih => simp [hf, ih]

theorem selInsert_hasKey (m : SelMap) (k : String) (v : Bool) (k' : String) :
    selHasKey (selInsert m k v) k' = (selHasKey m k' || k == k') := by
  unfold selInsert
  by_cases h : selHasKey m k = true
  · rw [if_pos h]
    rw [selHasKey_map_keyFixed]
    · by_cases hk : (k == k') = true
      · have : k = k' := by simpa using hk
        subst this
        simp [h, hk]
      · simp at hk
        simp [hk]
    · intro kv
      by_cases h0 : (kv.1 == k) = true
      · have : kv.1 = k := by simpa using h0
        simp [h0, this]
      · simp at h0
        simp [h0]
  · simp at h
    rw [if_neg (by simp [h])]
    simp [selHasKey_append, h]

theorem selInsert_values (m : SelMap) (f : String → Bool) (k : String)
    (hm : ∀ kv ∈ m, kv.2 = f kv.1) :
    ∀ kv ∈ selInsert m k (f k), kv.2 = f kv.1 := by
  unfold selInsert
  split
  · intro kv hkv
    rw [List.mem_map] at hkv
    obtain ⟨kv0, hkv0, heq⟩ := hkv
    by_cases h0 : (kv0.1 == k) = true
    · rw [if_pos h0] at heq
      subst heq
      rfl
    · simp at h0
      rw [if_neg (by simp [h0])] at heq
      subst heq
      exact hm kv0 hkv0
  · intro kv hkv
    rcases List.mem_append.mp hkv with h | h
    · exact hm kv h
    · simp at h
      subst h
      rfl

theorem selGetD_eq_of_values (m : SelMap) (f : String → Bool) (k : String) (d : Bool)
    (hm : ∀ kv ∈ m, kv.2 = f kv.1) (h : selHasKey m k = true) :
    selGetD m k d = f k := by
  induction m with
  | nil => simp at h
  | cons kv rest ih =>
    obtain ⟨k0, v0⟩ := kv
    by_cases hk : (k0 == k) = true
    · have hk' : k0 = k := by simpa using hk
      simp [hk, ← hk']
      exact hm (k0, v0) (by simp)
    · simp at hk
      simp [hk] at h ⊢
      exact ih (fun kv hkv => hm kv (List.mem_cons_of_mem _ hkv)) h

theorem selGetD_true_of_values (m : SelMap) (f : String → Bool) (k : String)
    (hm : ∀ kv ∈ m, kv.2 = f kv.1) (h : selGetD m k false = true) :
    f k = true := by
  by_cases hk : selHasKey m k = true
  · rw [selGetD_eq_of_values m f k false hm hk] at h
    exact h
  · simp at hk
    rw [selGetD_of_not_hasKey m k false hk] at h
    cases h

theorem dictComp_hasKey (ids : List String) (f : String → Bool) (k : String) :
    selHasKey (dictComp ids f) k = true ↔ k ∈ ids := by
  suffices h : ∀ acc, selHasKey
      (ids.foldl (fun acc rid => selInsert acc rid (f rid)) acc) k = true
      ↔ (selHasKey acc k = true ∨ k ∈ ids) by
    simpa [dictComp] using h []
  induction ids with
  | nil => intro acc; simp
  | cons rid rest ih =>
    intro acc
    rw [List.foldl_cons, ih]
    simp [selInsert_hasKey]
    constructor
    · rintro ((h | h) | h)
      · exact Or.inl h
      · exact Or.inr (Or.inl h.symm)
      · exact Or.inr (Or.inr h)
    · rintro (h | h | h)
      · exact Or.inl (Or.inl h)
      · exact Or.inl (Or.inr h.symm)
      · exact Or.inr h

theorem dictComp_values (ids : List String) (f : String → Bool) :
    ∀ kv ∈ dictComp ids f, kv.2 = f kv.1 := by
  suffices h : ∀ acc, (∀ kv ∈ acc, kv.2 = f kv.1) →
      ∀ kv ∈ ids.foldl (fun acc rid => selInsert acc rid (f rid)) acc, kv.2 = f kv.1 by
    exact h [] (by simp)
  induction ids with
  | nil => intro acc hacc; simpa using hacc
  | cons rid rest ih =>
    intro acc hacc
    rw [List.foldl_cons]
    exact ih _ (selInsert_values acc f rid hacc)

theorem dictComp_getD (ids : List String) (f : String → Bool) (k : String)
    (h : k ∈ ids) : selGetD (dictComp ids f) k false = f k :=
  selGetD_eq_of_values _ f k false (dictComp_values ids f)
    ((dictComp_hasKey ids f k).mpr h)

theorem sdFold_hasKey (ids : List String) (cur : String) (acc : SelMap) (k : String) :
    selHasKey (ids.foldl
      (fun acc rid => if selHasKey acc rid then acc else acc ++ [(rid, rid == cur)])
      acc) k = true
    ↔ (selHasKey acc k = true ∨ k ∈ ids) := by
  induction ids generalizing acc with
  | nil => simp
  | cons rid rest ih =>
    rw [List.foldl_cons]
    by_cases h : selHasKey acc rid = true
    · rw [if_pos h, ih]
      constructor
      · rintro (ha | hm)
        · exact Or.inl ha
        · exact Or.inr (List.mem_cons_of_mem _ hm)
      · rintro (ha | hm)
        · exact Or.inl ha
        · rcases List.mem_cons.mp hm with rfl | hm
          · exact Or.inl h
          · exact Or.inr hm
    · simp at h
      rw [if_neg (by simp [h]), ih]
      simp [selHasKey_append]
      constructor
      · rintro ((ha | hr) | hm)
        · exact Or.inl ha
        · exact Or.inr (Or.inl hr.symm)
        · exact Or.inr (Or.inr hm)
      · rintro (ha | hr | hm)
        · exact Or.inl (Or.inl ha)
        · exact Or.inl (Or.inr hr.symm)
        · exact Or.inr hm

theorem sdFold_getD_frozen (ids : List String) (cur : String) (acc : SelMap)
    (k : String) (d : Bool) (h : selHasKey acc k = true) :
    selGetD (ids.foldl
      (fun acc rid => if selHasKey acc rid then acc else acc ++ [(rid, rid == cur)])
      acc) k d = selGetD acc k d := by
  induction ids generalizing acc with
  | nil => rfl
  | cons rid rest ih =>
    rw [List.foldl_cons]
    by_cases hr : selHasKey acc rid = true
    · rw [if_pos hr, ih acc h]
    · simp at hr
      rw [if_neg (by simp [hr]),
        ih _ (by simp [selHasKey_append, h]),
        selGetD_append_of_hasKey _ _ _ _ h]

theorem sdFold_getD_new (ids : List String) (cur : String) (acc : SelMap)
    (k : String) (hacc : selHasKey acc k = false) (hk : k ∈ ids) :
    selGetD (ids.foldl
      (fun acc rid => if selHasKey acc rid then acc else acc ++ [(rid, rid == cur)])
      acc) k false = (k == cur) := by
  induction ids generalizing acc with
  | nil => cases hk
  | cons rid rest ih =>
    rw [List.foldl_cons]
    by_cases heq : rid = k
    · subst heq
      rw [if_neg (by simp [hacc])]
      rw [sdFold_getD_frozen _ _ _ _ _ (by simp [selHasKey_append]),
        selGetD_append_of_not_hasKey _ _ _ _ hacc]
      simp
    · rcases List.mem_cons.mp hk with rfl | hk'
      · exact absurd rfl heq
      · by_cases hr : selHasKey acc rid = true
        · rw [if_pos hr]
          exact ih acc hacc hk'
        · simp at hr
          rw [if_neg (by simp [hr])]
          refine ih _ ?_ hk'
          simp [selHasKey_append, hacc]
          exact fun h => absurd h heq

theorem selHasKey_filter_false (m : SelMap) (p : String × Bool → Bool) (k : String)
    (h : selHasKey m k = false) : selHasKey (m.filter p) k = false := by
  induction m with
  | nil => rfl
  | cons kv rest ih =>
    simp at h
    by_cases hp : p kv = true
    · simp [List.filter_cons, hp, h.1, ih h.2]
    · simp at hp
      simp [List.filter_cons, hp, ih h.2]

theorem selHasKey_filter_contains (m : SelMap) (ids : List String) (k : String)
    (h : selHasKey (m.filter (fun kv => ids.contains kv.1)) k = true) : k ∈ ids := by
  induction m with
  | nil => cases h
  | cons kv rest ih =>
    rw [List.filter_cons] at h
    by_cases hp : ids.contains kv.1 = true
    · rw [if_pos (by exact hp)] at h
      rw [selHasKey_cons, Bool.or_eq_true] at h
      rcases h with h | h
      · have : kv.1 = k := by simpa using h
        subst this
        simpa using hp
      · exact ih h
    · rw [if_neg (by exact fun hc => hp hc)] at h
      exact ih h

theorem pruneInit_hasKey (m : Option SelMap) (ids : List String) (cur : String)
    (k : String) :
    selHasKey (pruneInit m ids cur) k = true ↔ k ∈ ids := by
  match m with
  | none => exact dictComp_hasKey ids _ k
  | some m =>
    rw [pruneInit, sdFold_hasKey]
    constructor
    · rintro (h | h)
      · exact selHasKey_filter_contains m ids k h
      · exact h
    · exact fun h => Or.inr h

theorem pruneInit_default_none (ids : List String) (cur : String) (k : String)
    (hk : k ∈ ids) :
    selGetD (pruneInit none ids cur) k false = (k == cur) :=
  dictComp_getD ids _ k hk

theorem pruneInit_default_some (m : SelMap) (ids : List String) (cur : String)
    (k : String) (hk : k ∈ ids) (hm : selHasKey m k = false) :
    selGetD (pruneInit (some m) ids cur) k false = (k == cur) := by
  rw [pruneInit]
  exact sdFold_getD_new ids cur _ k (selHasKey_filter_false m _ k hm) hk

/-! ## Record-store lemmas -/

theorem hasKey_of_lookupKV (kvs : List (String × JVal)) (k : String) (v : JVal)
    (h : lookupKV kvs k = some v) : hasKey kvs k = true := by
  induction kvs with
  | nil => cases h
  | cons kv rest ih =>
    obtain ⟨k0, v0⟩ := kv
    rw [lookupKV] at h
    by_cases hk : k0 = k
    · simp [hasKey, hk]
    · rw [if_neg hk] at h
      simp [hasKey] at ih ⊢
      exact Or.inr (ih h)

theorem suffixFold_eq_filterMap (l : List Opp) (acc : List Int) :
    l.foldl
      (fun acc o =>
        match trailingSuffixNum o.id with
        | some n => acc ++ [n]
        | none => acc) acc
    = acc ++ l.filterMap (fun o => trailingSuffixNum o.id) := by
  induction l generalizing acc with
  | nil => simp
  | cons o rest ih =>
    rw [List.foldl_cons]
    cases h : trailingSuffixNum o.id with
    | some n =>
      simp only [h]
      rw [ih, List.filterMap_cons, h, List.append_assoc, List.singleton_append]
    | none =>
      simp only [h]
      rw [ih, List.filterMap_cons, h]

theorem updateFirst_idem (l : List Opp) (opp_id : String) :
    updateFirst (updateFirst l opp_id submit_tender_record) opp_id submit_tender_record
      = updateFirst l opp_id submit_tender_record := by
  induction l with
  | nil => rfl
  | cons o rest ih =>
    rw [updateFirst]
    by_cases h : (o.id == opp_id) = true
    · rw [if_pos h, updateFirst, if_pos (by exact h)]
      rfl
    · rw [if_neg (by simpa using h), updateFirst, if_neg (by simpa using h), ih]

theorem find?_updateFirst (l : List Opp) (opp_id : String) (o : Opp)
    (h : l.find? (fun o => o.id == opp_id) = some o) :
    (updateFirst l opp_id submit_tender_record).find? (fun o => o.id == opp_id)
      = some (submit_tender_record o) := by
  induction l with
  | nil => cases h
  | cons o0 rest ih =>
    rw [List.find?_cons] at h
    by_cases h0 : (o0.id == opp_id) = true
    · simp only [h0] at h
      obtain rfl : o0 = o := by simpa using h
      rw [updateFirst, if_pos h0, List.find?_cons]
      have hs : ((submit_tender_record o0).id == opp_id) = true := h0
      simp only [hs]
    · have h0' : (o0.id == opp_id) = false := by simpa using h0
      simp only [h0'] at h
      rw [updateFirst, if_neg (by simp [h0']), List.find?_cons]
      simp only [h0']
      exact ih h

theorem getLastD_mem {α : Type} (l : List α) (d : α) (h : l ≠ []) :
    l.getLastD d ∈ l := by
  induction l generalizing d with
  | nil => exact absurd rfl h
  | cons a t ih =>
    rw [List.getLastD_cons]
    cases t with
    | nil => simp
    | cons b t2 => exact List.mem_cons_of_mem _ (ih a (by simp))

theorem reconcile_map_shape (ids : List String) (prev : SelMap)
    (edited : String → Bool) (current_id : Option String) :
    ∃ f : String → Bool,
      (reconcile ids prev edited current_id).selected_map = dictComp ids f
      ∧ ((∀ r, f r = false) ∨ ∃ w, f = fun r => r == w) := by
  simp only [reconcile]
  cases hc : changedToTrue ids prev edited with
  | cons a t =>
    simp only [hc]
    exact ⟨_, rfl, Or.inr ⟨(a :: t).getLastD "", rfl⟩⟩
  | nil =>
    simp only [hc]
    cases hs : ids.filter edited with
    | nil =>
      simp only [hs]
      exact ⟨_, rfl, Or.inl fun r => rfl⟩
    | cons b t2 =>
      cases t2 with
      | nil =>
        simp only [hs]
        exact ⟨_, rfl, Or.inr ⟨b, rfl⟩⟩
      | cons c t3 =>
        simp only [hs]
        exact ⟨_, rfl, Or.inr ⟨(b :: c :: t3).getLastD "", rfl⟩⟩

/-! ## Navigation lemmas -/

theorem hydrate_of_consumed (s : Session) (qp : QueryParams)
    (h : s.qp_consumed = true) : hydrate s qp = s := by
  rw [hydrate, if_pos h]

theorem hydrate_qp_consumed (s : Session) (qp : QueryParams) :
    (hydrate s qp).qp_consumed = true := by
  rw [hydrate]
  by_cases h : s.qp_consumed = true
  · rw [if_pos h]
    exact h
  · rw [if_neg h]

theorem hydrate_nav_target (s : Session) (qp : QueryParams) :
    (hydrate s qp).nav_target = s.nav_target := by
  rw [hydrate]
  by_cases h : s.qp_consumed = true
  · rw [if_pos h]
  · rw [if_neg h]
    cases qp.id <;> cases qp.page <;> dsimp only <;> (try split) <;> (try split) <;> rfl

theorem consumeIntent_of_none (s : Session) (h : s.nav_target = none) :
    consumeIntent s = s := by
  simp only [consumeIntent, h]

theorem consumeIntent_nav_target (s : Session) :
    (consumeIntent s).nav_target = none := by
  cases h : s.nav_target with
  | none => rw [consumeIntent_of_none s h]; exact h
  | some t => simp only [consumeIntent, h]

/-! ## Claim theorems -/

/-- Claim C1, counterexample: storage whose content parses to the dict
`{"opportunities": 5}` — a dict with the key, but whose value is not a
list — is returned by `load_data` unchanged, so the result is neither
`{"opportunities": []}` nor a document whose `opportunities` field is a
list, contrary to the claim's guarantee for content that "does not
parse as the expected shape (a dict whose opportunities value is a
list)". -/
theorem load_data_nonlist_counterexample :
    load_data (Storage.content (JVal.obj [("opportunities", JVal.num 5)]))
      = JVal.obj [("opportunities", JVal.num 5)]
    ∧ load_data (Storage.content (JVal.obj [("opportunities", JVal.num 5)]))
      ≠ emptyDoc
    ∧ ¬ opportunitiesIsList
        (load_data (Storage.content (JVal.obj [("opportunities", JVal.num 5)]))) := by
  refine ⟨rfl, ?_, by decide⟩
  intro h
  have h2 : JVal.obj [("opportunities", JVal.num 5)] = emptyDoc := h
  simp [emptyDoc] at h2

/-- Claim C1, amended: `load_data` is total (no storage state makes it
raise) and always returns a dict containing the key `"opportunities"`;
when the storage is absent, unreadable, or parses to anything other
than a dict containing that key, the result is exactly
`{"opportunities": []}`; but a parsed dict containing the key is
returned unchanged, even when its `opportunities` value is not a
list. -/
theorem load_data_shape_guarantee (s : Storage) :
    (∃ kvs, load_data s = JVal.obj kvs ∧ hasKey kvs "opportunities" = true)
    ∧ load_data Storage.absent = emptyDoc
    ∧ load_data Storage.unreadable = emptyDoc
    ∧ (∀ v, (∀ kvs, v = JVal.obj kvs → hasKey kvs "opportunities" = false) →
        load_data (Storage.content v) = emptyDoc)
    ∧ (∀ kvs, hasKey kvs "opportunities" = true →
        load_data (Storage.content (JVal.obj kvs)) = JVal.obj kvs) := by
  refine ⟨?_, rfl, rfl, ?_, ?_⟩
  · match s with
    | .absent => exact ⟨[("opportunities", .arr [])], rfl, rfl⟩
    | .unreadable => exact ⟨[("opportunities", .arr [])], rfl, rfl⟩
    | .content v =>
      match v with
      | .null | .bool _ | .num _ | .str _ | .arr _ =>
        exact ⟨[("opportunities", .arr [])], rfl, rfl⟩
      | .obj kvs =>
        by_cases h : hasKey kvs "opportunities" = true
        · exact ⟨kvs, by simp [load_data, h], h⟩
        · simp at h
          exact ⟨[("opportunities", .arr [])], by simp [load_data, h, emptyDoc], rfl⟩
  · intro v hv
    match v with
    | .null | .bool _ | .num _ | .str _ | .arr _ => rfl
    | .obj kvs => simp [load_data, hv kvs rfl]
  · intro kvs h
    simp [load_data, h]

/-- Claim C1, witness: the amended theorem applied at concrete storage
states. -/
theorem load_data_shape_guarantee_witness :
    (∃ kvs, load_data (Storage.content (JVal.str "oops")) = JVal.obj kvs
      ∧ hasKey kvs "opportunities" = true)
    ∧ load_data (Storage.content (JVal.str "oops")) = emptyDoc
    ∧ load_data (Storage.content (JVal.obj [("opportunities", JVal.arr [])]))
      = JVal.obj [("opportunities", JVal.arr [])] :=
  ⟨(load_data_shape_guarantee (Storage.content (JVal.str "oops"))).1,
   (load_data_shape_guarantee (Storage.content (JVal.str "oops"))).2.2.2.1 _
     (fun kvs h => by cases h),
   (load_data_shape_guarantee Storage.absent).2.2.2.2 _ rfl⟩

/-- Claim C10: saving a well-formed document — a dict whose
`opportunities` key holds a list — and loading it back yields the same
document, records and field values included. -/
theorem load_save_roundtrip (kvs : List (String × JVal)) (xs : List JVal)
    (h : lookupKV kvs "opportunities" = some (JVal.arr xs)) :
    load_data (save_data (JVal.obj kvs)) = JVal.obj kvs := by
  have hk := hasKey_of_lookupKV kvs "opportunities" _ h
  simp [load_data, save_data, hk]

/-- Claim C10, witness: round trip on a two-key document with one
record. -/
theorem load_save_roundtrip_witness :
    load_data (save_data (JVal.obj
      [("opportunities", JVal.arr [JVal.str "r1"]), ("extra", JVal.null)]))
      = JVal.obj [("opportunities", JVal.arr [JVal.str "r1"]), ("extra", JVal.null)] :=
  load_save_roundtrip _ [JVal.str "r1"] rfl

/-- Claim C7: `next_id` renders `max + 1` of the parseable trailing
suffixes (`1` when none parses, malformed suffixes skipped) as
`OPP-%04d`; it yields `OPP-0001` on the empty document and `OPP-0008`
on `OPP-0001`..`OPP-0007` plus one malformed id. -/
theorem next_id_spec :
    (∀ data : Document, next_id data = "OPP-" ++ fmt04d (specNextNum data))
    ∧ next_id ⟨[]⟩ = "OPP-0001"
    ∧ next_id ⟨["OPP-0001", "OPP-0002", "OPP-0003", "OPP-0004", "OPP-0005",
        "OPP-0006", "OPP-0007", "OPP-XYZ"].map (fun i => ⟨i, "", "", []⟩)⟩
      = "OPP-0008" := by
  refine ⟨?_, by decide, by decide⟩
  intro data
  have hfold : data.opportunities.foldl
      (fun acc o =>
        match trailingSuffixNum o.id with
        | some n => acc ++ [n]
        | none => acc) []
      = parsedSuffixes data := by
    rw [suffixFold_eq_filterMap, List.nil_append]
    rfl
  simp only [next_id, hfold]
  rfl

/-- Claim C8: filtering keeps exactly the records whose stage matches
the argument after trimming and case-insensitive comparison, in
document order, and a stage trimming to empty or to `all` in any case
returns all records unchanged. -/
theorem filter_by_stage_spec (data : Document) (stage : String) :
    (specNoFilter stage = true →
      filter_opportunities_by_stage data stage = data.opportunities)
    ∧ (specNoFilter stage = false →
      filter_opportunities_by_stage data stage
        = data.opportunities.filter (fun o => specStageMatch o stage)) := by
  constructor <;> intro h
  · simp only [filter_opportunities_by_stage]
    rw [if_pos ?_]
    simp only [specNoFilter, Bool.or_eq_true] at h
    rcases h with h | h
    · simp [h]
    · simp [h]
  · simp only [filter_opportunities_by_stage]
    rw [if_neg ?_]
    · rfl
    · simp only [specNoFilter, Bool.or_eq_false_iff] at h
      simp [h.1, h.2]

/-- Claim C8, witness: a sentinel stage returns all records; a concrete
stage filters by the spec predicate. -/
theorem filter_by_stage_spec_witness :
    (filter_opportunities_by_stage
      ⟨[⟨"A", " proposal ", "", []⟩, ⟨"B", "Negotiation", "", []⟩]⟩ " ALL "
      = [⟨"A", " proposal ", "", []⟩, ⟨"B", "Negotiation", "", []⟩])
    ∧ (filter_opportunities_by_stage
      ⟨[⟨"A", " proposal ", "", []⟩, ⟨"B", "Negotiation", "", []⟩]⟩ "PROPOSAL"
      = List.filter (fun o => specStageMatch o "PROPOSAL")
          [⟨"A", " proposal ", "", []⟩, ⟨"B", "Negotiation", "", []⟩]) :=
  ⟨(filter_by_stage_spec ⟨[⟨"A", " proposal ", "", []⟩, ⟨"B", "Negotiation", "", []⟩]⟩
      " ALL ").1 (by decide),
   (filter_by_stage_spec ⟨[⟨"A", " proposal ", "", []⟩, ⟨"B", "Negotiation", "", []⟩]⟩
      "PROPOSAL").2 (by decide)⟩

/-- Claim C9: for any record found by `get_by_id` — its current stage
unconstrained — the submit handler sets its stage to `Submitted` and
its `last_modified_by` to the fixed operator label while keeping its
other fields, persists the whole updated document, and running the
handler a second time yields the identical end state. -/
theorem submit_tender_spec (data : Document) (opp_id : String) (o : Opp)
    (h : get_by_id data opp_id = some o) :
    (submit_tender_record o).stage = "Submitted"
    ∧ (submit_tender_record o).last_modified_by = "Tender Desk"
    ∧ (submit_tender_record o).id = o.id
    ∧ (submit_tender_record o).rest = o.rest
    ∧ get_by_id (submitTenderHandler data opp_id).doc opp_id
      = some (submit_tender_record o)
    ∧ (submitTenderHandler data opp_id).persisted = (submitTenderHandler data opp_id).doc
    ∧ submitTenderHandler (submitTenderHandler data opp_id).doc opp_id
      = submitTenderHandler data opp_id := by
  refine ⟨rfl, rfl, rfl, rfl, ?_, rfl, ?_⟩
  · exact find?_updateFirst data.opportunities opp_id o h
  · simp only [submitTenderHandler]
    rw [updateFirst_idem]

/-- Claim C9, witness: submitting a `Proposal`-stage record. -/
theorem submit_tender_spec_witness :
    get_by_id (submitTenderHandler ⟨[⟨"OPP-0001", "Proposal", "Alice", []⟩]⟩
        "OPP-0001").doc "OPP-0001"
      = some (submit_tender_record ⟨"OPP-0001", "Proposal", "Alice", []⟩)
    ∧ submitTenderHandler
        (submitTenderHandler ⟨[⟨"OPP-0001", "Proposal", "Alice", []⟩]⟩ "OPP-0001").doc
        "OPP-0001"
      = submitTenderHandler ⟨[⟨"OPP-0001", "Proposal", "Alice", []⟩]⟩ "OPP-0001" :=
  ⟨(submit_tender_spec ⟨[⟨"OPP-0001", "Proposal", "Alice", []⟩]⟩ "OPP-0001"
      ⟨"OPP-0001", "Proposal", "Alice", []⟩ rfl).2.2.2.2.1,
   (submit_tender_spec ⟨[⟨"OPP-0001", "Proposal", "Alice", []⟩]⟩ "OPP-0001"
      ⟨"OPP-0001", "Proposal", "Alice", []⟩ rfl).2.2.2.2.2.2⟩

/-- Claim C2: when at least one visible id newly transitioned from
unchecked to checked, the winner is the last such id in visible-id
order — a genuinely newly-checked visible id — every visible id's flag
is forced to `checked iff it is the winner`, the session current record
id pointer is updated to the winner, and a rerun (refresh) is
signalled. -/
theorem reconcile_new_checked_last_wins (ids : List String) (prev : SelMap)
    (edited : String → Bool) (current_id : Option String)
    (h : changedToTrue ids prev edited ≠ []) :
    (reconcile ids prev edited current_id).selected_id
      = some ((changedToTrue ids prev edited).getLastD "")
    ∧ (reconcile ids prev edited current_id).current_id
      = some ((changedToTrue ids prev edited).getLastD "")
    ∧ (reconcile ids prev edited current_id).rerun = true
    ∧ (changedToTrue ids prev edited).getLastD "" ∈ ids
    ∧ edited ((changedToTrue ids prev edited).getLastD "") = true
    ∧ selGetD prev ((changedToTrue ids prev edited).getLastD "") false = false
    ∧ (∀ rid ∈ ids,
        selGetD (reconcile ids prev edited current_id).selected_map rid false
          = (rid == (changedToTrue ids prev edited).getLastD "")) := by
  have hw : (changedToTrue ids prev edited).getLastD ""
      ∈ changedToTrue ids prev edited := getLastD_mem _ _ h
  have hmem := List.mem_filter.mp hw
  obtain ⟨hin, hpred⟩ := hmem
  rw [Bool.and_eq_true] at hpred
  obtain ⟨he, hp⟩ := hpred
  rw [Bool.not_eq_true'] at hp
  cases hc : changedToTrue ids prev edited with
  | nil => exact absurd hc h
  | cons a t =>
    have hout : reconcile ids prev edited current_id
        = ⟨some ((a :: t).getLastD ""),
           dictComp ids (fun r => r == (a :: t).getLastD ""),
           some ((a :: t).getLastD ""), true⟩ := by
      simp only [reconcile, hc]
    rw [hc] at hin he hp
    rw [hout]
    exact ⟨rfl, rfl, rfl, hin, he, hp,
      fun rid hrid => dictComp_getD ids _ rid hrid⟩

/-- Claim C2, witness: the spec's scenario — visible ids `[A,B,C]`,
previous map `{A: true}`, submitted map `{A: false, B: true, C: true}` —
selects `C`, forces the others unchecked, and signals refresh. -/
theorem reconcile_new_checked_last_wins_witness :
    (reconcile ["A", "B", "C"] [("A", true)]
      (fun r => r == "B" || r == "C") (some "A")).selected_id = some "C"
    ∧ (reconcile ["A", "B", "C"] [("A", true)]
      (fun r => r == "B" || r == "C") (some "A")).current_id = some "C"
    ∧ (reconcile ["A", "B", "C"] [("A", true)]
      (fun r => r == "B" || r == "C") (some "A")).rerun = true
    ∧ selGetD (reconcile ["A", "B", "C"] [("A", true)]
      (fun r => r == "B" || r == "C") (some "A")).selected_map "B" false = false := by
  have h := reconcile_new_checked_last_wins ["A", "B", "C"] [("A", true)]
    (fun r => r == "B" || r == "C") (some "A") (by decide)
  refine ⟨?_, ?_, h.2.2.1, ?_⟩
  · rw [h.1]; rfl
  · rw [h.2.1]; rfl
  · rw [h.2.2.2.2.2.2 "B" (by decide)]; rfl

/-- Claim C3, counterexample: with visible ids `[A]`, previous map
`{A: true}`, submitted map `{A: false}` — no new transition, zero
checked — the reconciliation leaves the session current record id
pointer at `A` instead of clearing it. -/
theorem reconcile_zero_checked_counterexample :
    changedToTrue ["A"] [("A", true)] (fun _ => false) = []
    ∧ ["A"].filter (fun _ => false) = []
    ∧ (reconcile ["A"] [("A", true)] (fun _ => false) (some "A")).current_id
      = some "A" := by
  refine ⟨rfl, rfl, rfl⟩

/-- Claim C3, amended: with no id newly transitioned to checked and
zero ids checked, the reconciliation reports no selected id, forces
every visible id's flag to unchecked, and triggers no rerun — but it
leaves the session current record id pointer unchanged rather than
clearing it. -/
theorem reconcile_zero_checked (ids : List String) (prev : SelMap)
    (edited : String → Bool) (current_id : Option String)
    (h1 : changedToTrue ids prev edited = [])
    (h2 : ids.filter edited = []) :
    (reconcile ids prev edited current_id).selected_id = none
    ∧ (∀ rid ∈ ids,
        selGetD (reconcile ids prev edited current_id).selected_map rid false = false)
    ∧ (reconcile ids prev edited current_id).current_id = current_id
    ∧ (reconcile ids prev edited current_id).rerun = false := by
  have hout : reconcile ids prev edited current_id
      = ⟨none, dictComp ids (fun _ => false), current_id, false⟩ := by
    simp only [reconcile, h1, h2]
  rw [hout]
  exact ⟨rfl, fun rid hrid => dictComp_getD ids _ rid hrid, rfl, rfl⟩

/-- Claim C3, witness: the amended theorem at the counterexample's
input. -/
theorem reconcile_zero_checked_witness :
    (reconcile ["A"] [("A", true)] (fun _ => false) (some "A")).selected_id = none
    ∧ selGetD (reconcile ["A"] [("A", true)]
        (fun _ => false) (some "A")).selected_map "A" false = false
    ∧ (reconcile ["A"] [("A", true)] (fun _ => false) (some "A")).current_id
      = some "A"
    ∧ (reconcile ["A"] [("A", true)] (fun _ => false) (some "A")).rerun = false := by
  have h := reconcile_zero_checked ["A"] [("A", true)] (fun _ => false) (some "A")
    rfl rfl
  exact ⟨h.1, h.2.1 "A" (by decide), h.2.2.1, h.2.2.2⟩

/-- Claim C4: after the prune/init step the selection map's keys are
exactly the visible ids and a newly listed id defaults to checked iff
it equals the current record id; after the reconciliation the rebuilt
map again has exactly the visible ids as keys and at most one id is
checked. -/
theorem selection_pass_invariants (m : Option SelMap) (ids : List String)
    (cur : String) (edited : String → Bool) (current_id : Option String) :
    (∀ k, selHasKey (pruneInit m ids cur) k = true ↔ k ∈ ids)
    ∧ (∀ k ∈ ids, (∀ m0, m = some m0 → selHasKey m0 k = false) →
        selGetD (pruneInit m ids cur) k false = (k == cur))
    ∧ (∀ k, selHasKey
        (reconcile ids (pruneInit m ids cur) edited current_id).selected_map k = true
        ↔ k ∈ ids)
    ∧ (∀ k1 k2,
        selGetD (reconcile ids (pruneInit m ids cur) edited current_id).selected_map
          k1 false = true →
        selGetD (reconcile ids (pruneInit m ids cur) edited current_id).selected_map
          k2 false = true →
        k1 = k2) := by
  obtain ⟨f, hmap, hf⟩ := reconcile_map_shape ids (pruneInit m ids cur) edited current_id
  refine ⟨fun k => pruneInit_hasKey m ids cur k, ?_, ?_, ?_⟩
  · intro k hk hnew
    match m with
    | none => exact pruneInit_default_none ids cur k hk
    | some m0 => exact pruneInit_default_some m0 ids cur k hk (hnew m0 rfl)
  · intro k
    rw [hmap]
    exact dictComp_hasKey ids f k
  · intro k1 k2 h1 h2
    rw [hmap] at h1 h2
    have hf1 := selGetD_true_of_values _ f k1 (dictComp_values ids f) h1
    have hf2 := selGetD_true_of_values _ f k2 (dictComp_values ids f) h2
    rcases hf with hall | ⟨w, rfl⟩
    · rw [hall k1] at hf1
      cases hf1
    · have e1 : k1 = w := by simpa using hf1
      have e2 : k2 = w := by simpa using hf2
      rw [e1, e2]

/-- Claim C4, witness: a concrete pass — stale key dropped, new ids
added with the default, rebuilt map keyed by the visible ids with at
most one checked. -/
theorem selection_pass_invariants_witness :
    (selHasKey (pruneInit (some [("OLD", true)]) ["A", "B"] "A") "A" = true)
    ∧ (selHasKey (pruneInit (some [("OLD", true)]) ["A", "B"] "A") "OLD" = true
        ↔ ("OLD" : String) ∈ ["A", "B"])
    ∧ selGetD (pruneInit (some [("OLD", true)]) ["A", "B"] "A") "B" false
      = ("B" == "A")
    ∧ (selHasKey (reconcile ["A", "B"] (pruneInit (some [("OLD", true)]) ["A", "B"] "A")
        (fun r => r == "B") (some "A")).selected_map "B" = true ↔ ("B" : String) ∈ ["A", "B"])
    ∧ ("B" : String) = "B" := by
  have h := selection_pass_invariants (some [("OLD", true)]) ["A", "B"] "A"
    (fun r => r == "B") (some "A")
  refine ⟨(h.1 "A").mpr (by decide), h.1 "OLD", ?_, h.2.2.1 "B", ?_⟩
  · exact h.2.1 "B" (by decide) (fun m0 hm0 => by cases hm0; rfl)
  · exact h.2.2.2 "B" "B" (by decide) (by decide)

/-- Claim C5: consuming a pending intent sets the current page to the
intent, removes it, and resets the consumed flag; hydration does
nothing once the flag is set and always leaves it set, so across
consecutive passes it applies at most once unless an intent resets the
flag; while the flag is unset, an `id` parameter naming an existing
record sets the current record id and a valid `page` parameter sets the
current page, while invalid or unknown parameters are ignored without
any effect (hydration is a total function — nothing raises). -/
theorem nav_intent_and_hydration (s : Session) (qp qp2 : QueryParams)
    (t i p : String) :
    (s.nav_target = some t → consumeIntent s
      = { s with nav := t, nav_target := none, qp_consumed := false })
    ∧ (s.qp_consumed = true → hydrate s qp = s)
    ∧ (hydrate s qp).qp_consumed = true
    ∧ hydrate (hydrate s qp) qp2 = hydrate s qp
    ∧ (intentAndHydrate s qp).nav_target = none
    ∧ intentAndHydrate (intentAndHydrate s qp) qp2 = intentAndHydrate s qp
    ∧ (s.qp_consumed = false → qp.id = some i →
        (i != "" && s.data.opportunities.any (fun o => o.id == i)) = true →
        (hydrate s qp).current_id = some i)
    ∧ (s.qp_consumed = false → qp.id = some i →
        (i != "" && s.data.opportunities.any (fun o => o.id == i)) = false →
        (hydrate s qp).current_id = s.current_id)
    ∧ (s.qp_consumed = false → qp.id = none →
        (hydrate s qp).current_id = s.current_id)
    ∧ (s.qp_consumed = false → qp.page = some p → valid_pages.contains p = true →
        (hydrate s qp).nav = p)
    ∧ (s.qp_consumed = false → qp.page = some p → valid_pages.contains p = false →
        (hydrate s qp).nav = s.nav)
    ∧ (s.qp_consumed = false → qp.page = none → (hydrate s qp).nav = s.nav) := by
  refine ⟨?_, hydrate_of_consumed s qp, hydrate_qp_consumed s qp,
    hydrate_of_consumed _ qp2 (hydrate_qp_consumed s qp), ?_, ?_, ?_, ?_, ?_, ?_, ?_, ?_⟩
  · intro h
    simp only [consumeIntent, h]
  · rw [intentAndHydrate, hydrate_nav_target, consumeIntent_nav_target]
  · rw [intentAndHydrate, intentAndHydrate,
      consumeIntent_of_none _ (by rw [hydrate_nav_target, consumeIntent_nav_target]),
      hydrate_of_consumed _ qp2 (hydrate_qp_consumed _ qp)]
  · intro hf hq hcond
    rw [hydrate, if_neg (by simp [hf])]
    simp only [hq]
    rw [if_pos hcond]
    cases qp.page <;> dsimp only <;> (try split) <;> rfl
  · intro hf hq hcond
    rw [hydrate, if_neg (by simp [hf])]
    simp only [hq]
    rw [if_neg (by simp [hcond])]
    cases qp.page <;> dsimp only <;> (try split) <;> rfl
  · intro hf hq
    rw [hydrate, if_neg (by simp [hf])]
    simp only [hq]
    cases qp.page <;> dsimp only <;> (try split) <;> rfl
  · intro hf hp hv
    rw [hydrate, if_neg (by simp [hf])]
    simp only [hp]
    cases qp.id <;> dsimp only <;> (try split) <;> rfl
  · intro hf hp hv
    rw [hydrate, if_neg (by simp [hf])]
    simp only [hp]
    cases qp.id <;> dsimp only <;> (try split) <;> (try split) <;>
      first
      | rfl
      | exact absurd ‹valid_pages.contains p = true› (by simpa using hv)
  · intro hf hp
    rw [hydrate, if_neg (by simp [hf])]
    simp only [hp]
    cases qp.id <;> dsimp only <;> (try split) <;> rfl

/-- Claim C5, witness: a pending intent is consumed with the flag
reset, and fresh hydration applies a valid deep link exactly once. -/
theorem nav_intent_and_hydration_witness :
    consumeIntent ⟨⟨[⟨"OPP-0002", "Proposal", "X", []⟩]⟩, none, "Opportunities",
        ["Opportunities"], some "Opportunity Detail", true⟩
      = ⟨⟨[⟨"OPP-0002", "Proposal", "X", []⟩]⟩, none, "Opportunity Detail",
        ["Opportunities"], none, false⟩
    ∧ (hydrate ⟨⟨[⟨"OPP-0002", "Proposal", "X", []⟩]⟩, none, "Opportunities",
        ["Opportunities"], none, false⟩
        ⟨some "Opportunity Detail", some "OPP-0002"⟩).current_id = some "OPP-0002"
    ∧ (hydrate ⟨⟨[⟨"OPP-0002", "Proposal", "X", []⟩]⟩, none, "Opportunities",
        ["Opportunities"], none, false⟩
        ⟨some "Opportunity Detail", some "OPP-0002"⟩).nav = "Opportunity Detail"
    ∧ hydrate (hydrate ⟨⟨[⟨"OPP-0002", "Proposal", "X", []⟩]⟩, none, "Opportunities",
        ["Opportunities"], none, false⟩ ⟨some "Opportunity Detail", some "OPP-0002"⟩)
        ⟨some "Submit Tender", some "OPP-0009"⟩
      = hydrate ⟨⟨[⟨"OPP-0002", "Proposal", "X", []⟩]⟩, none, "Opportunities",
        ["Opportunities"], none, false⟩ ⟨some "Opportunity Detail", some "OPP-0002"⟩ := by
  have hA := nav_intent_and_hydration
    ⟨⟨[⟨"OPP-0002", "Proposal", "X", []⟩]⟩, none, "Opportunities",
      ["Opportunities"], some "Opportunity Detail", true⟩
    ⟨some "Opportunity Detail", some "OPP-0002"⟩
    ⟨some "Submit Tender", some "OPP-0009"⟩
    "Opportunity Detail" "OPP-0002" "Opportunity Detail"
  have hB := nav_intent_and_hydration
    ⟨⟨[⟨"OPP-0002", "Proposal", "X", []⟩]⟩, none, "Opportunities",
      ["Opportunities"], none, false⟩
    ⟨some "Opportunity Detail", some "OPP-0002"⟩
    ⟨some "Submit Tender", some "OPP-0009"⟩
    "Opportunity Detail" "OPP-0002" "Opportunity Detail"
  exact ⟨hA.1 rfl,
    hB.2.2.2.2.2.2.1 rfl rfl (by decide),
    hB.2.2.2.2.2.2.2.2.2.1 rfl rfl (by decide),
    hB.2.2.2.1⟩

/-- Claim C6: the Back control is enabled exactly when the history has
more than one entry; with an empty or singleton history the activation
handler changes nothing; otherwise it pops the top entry, stores the
new top as the pending navigation intent, and writes that page together
with the current record id into the query parameters. -/
theorem back_button_spec (s : Session) (qp : QueryParams) :
    (back_disabled s = false ↔ 1 < s.nav_history.length)
    ∧ (s.nav_history.length ≤ 1 → go_back s qp = (s, qp))
    ∧ (1 < s.nav_history.length →
        (go_back s qp).1
          = { s with
              nav_history := s.nav_history.dropLast
              nav_target := some (s.nav_history.dropLast.getLastD "") }
        ∧ (go_back s qp).2
          = ⟨some (s.nav_history.dropLast.getLastD ""), s.current_id⟩) := by
  refine ⟨?_, ?_, ?_⟩
  · rw [back_disabled]
    simp only [Bool.or_eq_false_iff, List.isEmpty_eq_false_iff_exists_mem,
      decide_eq_false_iff_not, not_le]
    constructor
    · exact fun h => h.2
    · intro h
      refine ⟨?_, h⟩
      have : s.nav_history ≠ [] := by
        intro hnil
        rw [hnil] at h
        simp at h
      exact List.exists_mem_of_ne_nil _ this
  · intro h
    rw [go_back, if_neg (by omega)]
  · intro h
    rw [go_back, if_pos h]
    exact ⟨rfl, rfl⟩

/-- Claim C6, witness: the Back control on history
`[Opportunities, New Opportunity, Opportunity Detail]` pops to
`New Opportunity` and syncs the query parameters; on a singleton
history it is disabled and does nothing. -/
theorem back_button_spec_witness :
    (back_disabled ⟨⟨[]⟩, some "OPP-0001", "Opportunity Detail",
        ["Opportunities", "New Opportunity", "Opportunity Detail"], none, true⟩ = false
      ↔ 1 < (["Opportunities", "New Opportunity", "Opportunity Detail"] : List String).length)
    ∧ go_back ⟨⟨[]⟩, some "OPP-0001", "Opportunities", ["Opportunities"], none, true⟩
        ⟨some "Opportunities", some "OPP-0001"⟩
      = (⟨⟨[]⟩, some "OPP-0001", "Opportunities", ["Opportunities"], none, true⟩,
         ⟨some "Opportunities", some "OPP-0001"⟩)
    ∧ (go_back ⟨⟨[]⟩, some "OPP-0001", "Opportunity Detail",
        ["Opportunities", "New Opportunity", "Opportunity Detail"], none, true⟩
        ⟨some "Opportunity Detail", some "OPP-0001"⟩).1
      = ⟨⟨[]⟩, some "OPP-0001", "Opportunity Detail",
        ["Opportunities", "New Opportunity"], some "New Opportunity", true⟩
    ∧ (go_back ⟨⟨[]⟩, some "OPP-0001", "Opportunity Detail",
        ["Opportunities", "New Opportunity", "Opportunity Detail"], none, true⟩
        ⟨some "Opportunity Detail", some "OPP-0001"⟩).2
      = ⟨some "New Opportunity", some "OPP-0001"⟩ := by
  have hLong := back_button_spec ⟨⟨[]⟩, some "OPP-0001", "Opportunity Detail",
    ["Opportunities", "New Opportunity", "Opportunity Detail"], none, true⟩
    ⟨some "Opportunity Detail", some "OPP-0001"⟩
  have hShort := back_button_spec
    ⟨⟨[]⟩, some "OPP-0001", "Opportunities", ["Opportunities"], none, true⟩
    ⟨some "Opportunities", some "OPP-0001"⟩
  refine ⟨?_, ?_, ?_, ?_⟩
  · exact hLong.1
  · exact hShort.2.1 (by decide)
  · rw [(hLong.2.2 (by decide)).1]
    rfl
  · rw [(hLong.2.2 (by decide)).2]
    rfl

end Tender
